import Mathlib

/-!
Verification of the kuro-assistant brain repository: shallow embedding of the
intent router, planner, DAG validator, decision arbiter, DAG executor and
semantic analyst, together with theorems settling the frozen claims.
-/

set_option maxHeartbeats 1000000

/-- Occurrence of one character list inside another, checked position by
position. -/
def listContains (needle : List Char) : List Char → Bool
  | [] => needle.isEmpty
  | c :: rest => needle.isPrefixOf (c :: rest) || listContains needle rest

/-- Boolean substring test: `strContains hay needle` models the Python
expression `needle in hay`. -/
def strContains (hay needle : String) : Bool :=
  listContains needle.data hay.data

/-- ASCII lowercasing over the character data, the view of str.lower the
embedded code needs. -/
def lowerStr (s : String) : String := String.mk (s.data.map Char.toLower)

/-- ASCII uppercasing over the character data. -/
def upperStr (s : String) : String := String.mk (s.data.map Char.toUpper)

/-- Whitespace strip at both ends, the view of str.strip the embedded code
needs. -/
def trimStr (s : String) : String :=
  String.mk (((s.data.dropWhile Char.isWhitespace).reverse.dropWhile
    Char.isWhitespace).reverse)

/-- Boolean whole-prefix test over the character data. -/
def strStarts (s pre : String) : Bool := pre.data.isPrefixOf s.data

/-- Monadic map over `Except`, written with explicit recursion so proofs can
unfold it; models a Python loop that raises on the first failing element. -/
def mapME (f : α → Except Unit β) : List α → Except Unit (List β)
  | [] => Except.ok []
  | x :: xs =>
    match f x with
    | Except.error e => Except.error e
    | Except.ok y =>
      match mapME f xs with
      | Except.error e => Except.error e
      | Except.ok ys => Except.ok (y :: ys)

/-- Intent enumeration of the router (kuro_pb2 Intent values). -/
inductive Intent where
  | CONVERSE | REALTIME_SEARCH | TOOL_ACTION | MEMORY_QUERY
deriving DecidableEq, Repr

/-- Arbiter verdicts. -/
inductive Verdict where
  | ALLOW | DENY | CONFIRM
deriving DecidableEq, Repr

/-- ActionIntent proto: tool id, stringly params, dependency ids and an
optional condition expression. -/
structure ActionIntent where
  action_id : String
  params : List (String × String)
  depends_on : List String
  condition : Option String
deriving DecidableEq, Repr

/-- PlannerStep proto. -/
structure PlannerStep where
  step_id : String
  description : String
  intent : ActionIntent
deriving DecidableEq, Repr

/-- PlannerDAG proto. -/
structure PlannerDAG where
  goal : String
  steps : List PlannerStep
deriving DecidableEq, Repr

/-- Destination tags of the Tool Registry. -/
inductive Dest where
  | memory | rag | client | ops
deriving DecidableEq, Repr

/-- Modelled from the spec: the file common/utils/tool_registry.py is not in
src (only the validator and the planner prompt import it).  Section 4.1 gives
its shape, a process-wide constant map from tool id to destination tag; tool
ids are the ones the spec names (MEMORY_GET, RAG_SEARCH, FS_LIST, FS_DELETE)
plus one ops-destination tool, which section 6 requires via
OpsService.ExecuteSystemAction. -/
def TOOL_REGISTRY : List (String × Dest) :=
  [("MEMORY_GET", Dest.memory), ("RAG_SEARCH", Dest.rag),
   ("FS_LIST", Dest.client), ("FS_DELETE", Dest.client),
   ("OPS_RESTART", Dest.ops)]

/-- The registered tool ids (dict-membership view of the registry). -/
def registryIds : List String := TOOL_REGISTRY.map Prod.fst

/-- Destination tag recorded in the registry for a tool id. -/
def registryDest (tool : String) : Option Dest :=
  (TOOL_REGISTRY.find? (fun p => p.fst = tool)).map Prod.snd

namespace DAGValidator

/-- The step ids of a DAG, in step order (with duplicates kept). -/
def stepIds (dag : PlannerDAG) : List String :=
  dag.steps.map (fun s => s.step_id)

/-- Adjacency of the dependency graph as the validator builds it: the
dependents of `u` are the step ids of every step occurrence listing `u`
among its dependencies, in build order. -/
def adjOf (dag : PlannerDAG) (u : String) : List String :=
  (dag.steps.map (fun s =>
    s.intent.depends_on.filterMap (fun d =>
      if d = u then some s.step_id else none))).flatten

/-- Edge relation of the dependency graph: `v` depends on `u`. -/
def Edge (dag : PlannerDAG) (u v : String) : Prop :=
  v ∈ adjOf dag u

instance (dag : PlannerDAG) (u v : String) : Decidable (Edge dag u v) := by
  unfold Edge; infer_instance

/-- Roots: the ids of the step occurrences with no dependencies. -/
def rootsOf (dag : PlannerDAG) : List String :=
  (dag.steps.filter (fun s => s.intent.depends_on.isEmpty)).map
    (fun s => s.step_id)

/-- The recursive helper get_depth of DAGValidator._calculate_max_depth: a
depth-first traversal with a per-path visited set, raising (error) when a
node repeats on the current path, and otherwise returning the node count of
the longest walk.  The fuel argument only bounds recursion; the callers pass
more fuel than the traversal can consume. -/
def getDepth (dag : PlannerDAG) (fuel : Nat) (visited : List String)
    (node : String) : Except Unit Nat :=
  match fuel with
  | 0 => Except.error ()
  | Nat.succ f =>
    if node ∈ visited then Except.error ()
    else
      match mapME (getDepth dag f (node :: visited)) (adjOf dag node) with
      | Except.error e => Except.error e
      | Except.ok ds => Except.ok (1 + ds.foldl max 0)

/-- DAGValidator._calculate_max_depth: raises on a dependency naming a
missing step, on an empty root set, and on a repeated node on some
root-originating path; otherwise the maximum over all roots of the longest
walk node count. -/
def calcMaxDepth (dag : PlannerDAG) : Except Unit Nat :=
  if dag.steps.any (fun s =>
      s.intent.depends_on.any (fun d => !((stepIds dag).contains d))) then
    Except.error ()
  else if (rootsOf dag).isEmpty then Except.error ()
  else
    match mapME (getDepth dag (dag.steps.length + 1) []) (rootsOf dag) with
    | Except.error e => Except.error e
    | Except.ok ds => Except.ok (ds.foldl max 0)

/-- DAGValidator.MAX_NODES. -/
def MAX_NODES : Nat := 6

/-- DAGValidator.MAX_DEPTH. -/
def MAX_DEPTH : Nat := 4

/-- DAGValidator.validate: the registry is passed explicitly (the Python
reads the module constant TOOL_REGISTRY); returns the ok flag and a reason
string. -/
def validate (registry : List String) (dag : PlannerDAG) : Bool × String :=
  if dag.steps.length > MAX_NODES then
    (false, "DAG complexity too high")
  else if dag.steps.isEmpty then
    (false, "DAG is empty.")
  else
    match dag.steps.find? (fun s => !(registry.contains s.intent.action_id)) with
    | some _ => (false, "Illegal action")
    | none =>
      match calcMaxDepth dag with
      | Except.error _ => (false, "Invalid DAG structure")
      | Except.ok d =>
        if d > MAX_DEPTH then (false, "DAG too deep")
        else (true, "Success")

end DAGValidator

/-- ArbiterDecision record of brain/arbiter/arbiter.py. -/
structure ArbiterDecision where
  step_id : String
  tool_id : String
  verdict : Verdict
  confidence : Rat
  reason : String
deriving DecidableEq, Repr

namespace DecisionArbiter

/-- DecisionArbiter.evaluate_plan: one decision per step in dag order; first
matching rule wins (forbidden token, destructive keyword, default allow). -/
def evaluate_plan (dag : PlannerDAG) : List ArbiterDecision :=
  dag.steps.map (fun step =>
    let aid := step.intent.action_id
    if strContains (upperStr aid) "DELETE_ALL" || strContains (upperStr aid) "FORMAT_SYSTEM" then
      ⟨step.step_id, aid, Verdict.DENY, 1, "Critical system safety violation."⟩
    else if strContains (lowerStr aid) "delete" || strContains (lowerStr aid) "remove" then
      ⟨step.step_id, aid, Verdict.CONFIRM, 4/5,
        "Potentially destructive action requires manual confirmation."⟩
    else ⟨step.step_id, aid, Verdict.ALLOW, 1, ""⟩)

end DecisionArbiter

/-- Response record of ClientExecutor.ExecuteAction. -/
structure ToolResp where
  success : Bool
  output : String
  error : String
deriving DecidableEq, Repr

/-- One RAG chunk; the reliability score is carried as the already rendered
two-decimal string, since no claim depends on float arithmetic. -/
structure Chunk where
  text : String
  source : String
  score : String
deriving DecidableEq, Repr

/-- Response record of RagService.SearchKnowledge. -/
structure RagData where
  chunks : List Chunk
deriving DecidableEq, Repr

/-- Response record of MemoryService.GetContext. -/
structure MemData where
  memory_summaries : List String
deriving DecidableEq, Repr

/-- The data payload stored under the data key of an executor result dict. -/
inductive PData where
  | rag (d : RagData)
  | mem (d : MemData)
  | tool (d : ToolResp)
  | raw (s : String)
deriving DecidableEq, Repr

/-- The ad-hoc Python result dict used by the executor and the analyst; each
field is optional because the source mixes several dict shapes (dispatch
results, the skip marker, the synthetic error entry).  The Python key id is
rendered as rid. -/
structure PResult where
  rtype : Option String
  success : Option Bool
  data : Option PData
  rid : Option String
  skipped : Option Bool
deriving DecidableEq, Repr

/-- The three stubs held by the DAGExecutor in src (no ops stub exists
there); each stub is a deterministic oracle, an exception being modelled by
the error case carrying the exception message. -/
structure Stubs where
  memory : String → Except String MemData
  rag : String → Except String RagData
  client : String → List (String × String) → Except String ToolResp

namespace DAGExecutor

/-- The retry budget of the executor (attempts beyond the first). -/
def retry_budget : Nat := 2

/-- DAGExecutor._dispatch_step: routes by hardcoded action id matching
(RAG_SEARCH, MEMORY_GET, FS_ prefix), returning the Unknown-action error
dict for everything else; a raising stub yields the error dict with the
exception message. -/
def dispatchStep (stubs : Stubs) (step : PlannerStep) : PResult :=
  let aid := step.intent.action_id
  if aid = "RAG_SEARCH" then
    match stubs.rag step.description with
    | Except.ok d => ⟨some "rag", some true, some (PData.rag d), none, none⟩
    | Except.error e => ⟨some "error", some false, some (PData.raw e), none, none⟩
  else if aid = "MEMORY_GET" then
    match stubs.memory "default" with
    | Except.ok d => ⟨some "memory", some true, some (PData.mem d), none, none⟩
    | Except.error e => ⟨some "error", some false, some (PData.raw e), none, none⟩
  else if strStarts aid "FS_" then
    match stubs.client aid step.intent.params with
    | Except.ok r => ⟨some "tool", some r.success, some (PData.tool r), none, none⟩
    | Except.error e => ⟨some "error", some false, some (PData.raw e), none, none⟩
  else
    ⟨some "error", some false, some (PData.raw ("Unknown action: " ++ aid)), none, none⟩

/-- DAGExecutor._evaluate_condition: scans the completed map in insertion
order and returns the success flag of the first completed step whose id is a
substring of the condition; with no match it returns true. -/
def evaluate_condition (cond : String) (context : List (String × PResult)) : Bool :=
  match context.find? (fun p => strContains cond p.fst) with
  | some p => p.snd.success.getD false
  | none => true

/-- The retry loop around a dispatch: re-dispatches while the success flag
is falsy and attempts remain, returning the result of the last attempt. -/
def retryGo (d : Nat → PResult) : Nat → Nat → PResult
  | 0, attempt => d attempt
  | Nat.succ n, attempt =>
    let r := d attempt
    if r.success.getD false then r else retryGo d n (attempt + 1)

/-- The skip marker stored in completed_steps for a skipped step. -/
def skipMarker : PResult := ⟨none, some true, none, none, some true⟩

/-- The synthetic error entry appended after a step exhausts its retries. -/
def syntheticError (sid : String) : PResult :=
  ⟨some "error", none,
   some (PData.raw "Step failed after retries. Manual intervention or \x27repair\x27 required."),
   some sid, none⟩

/-- Lookup in the steps_map dict (later occurrences overwrite earlier). -/
def stepLookup (dag : PlannerDAG) (sid : String) : Option PlannerStep :=
  dag.steps.reverse.find? (fun s => s.step_id = sid)

/-- The in-degree the executor computes for a step id: dependency
occurrences over all step occurrences carrying that id, counting only
dependencies that name an existing step. -/
def inDeg0 (dag : PlannerDAG) (sid : String) : Nat :=
  ((dag.steps.filter (fun s => s.step_id = sid)).map (fun s =>
    (s.intent.depends_on.filter
      (fun d => (DAGValidator.stepIds dag).contains d)).length)).sum

/-- First-occurrence deduplication, mirroring Python dict key order. -/
def firstDedup (l : List String) : List String :=
  l.foldl (fun acc x => if acc.contains x then acc else acc ++ [x]) []

/-- Current value of the in-degree map. -/
def lookupDeg (m : List (String × Nat)) (k : String) : Nat :=
  ((m.find? (fun p => p.fst = k)).map Prod.snd).getD 0

/-- Decrement of one key of the in-degree map. -/
def bumpDeg (m : List (String × Nat)) (k : String) : List (String × Nat) :=
  m.map (fun p => if p.fst = k then (p.fst, p.snd - 1) else p)

/-- Successor bookkeeping after a step completes: decrement each neighbor in
adjacency order, enqueueing a neighbor whose in-degree reaches zero. -/
def decNbs (nbs : List String) (st : List (String × Nat) × List String) :
    List (String × Nat) × List String :=
  nbs.foldl (fun st n =>
    let m := bumpDeg st.fst n
    if lookupDeg m n = 0 then (m, st.snd ++ [n]) else (m, st.snd)) st

/-- The main loop of DAGExecutor.execute (Kahn traversal).  The fuel only
bounds recursion; the caller passes more fuel than the queue can consume. -/
def execLoop (stubs : Stubs) (dag : PlannerDAG) :
    Nat → List String → List (String × Nat) → List (String × PResult) →
    List PResult → List PResult
  | 0, _, _, _, results => results
  | Nat.succ _, [], _, _, results => results
  | Nat.succ fuel, current :: queue, ideg, completed, results =>
    match stepLookup dag current with
    | none => results
    | some step =>
      let skipIt := match step.intent.condition with
        | some cond => !(evaluate_condition cond completed)
        | none => false
      if skipIt then
        let st := decNbs (DAGValidator.adjOf dag current) (ideg, queue)
        execLoop stubs dag fuel st.snd st.fst (completed ++ [(current, skipMarker)]) results
      else
        let r := retryGo (fun _ => dispatchStep stubs step) retry_budget 0
        let results2 := results ++ [r]
        if r.success.getD false then
          let st := decNbs (DAGValidator.adjOf dag current) (ideg, queue)
          execLoop stubs dag fuel st.snd st.fst (completed ++ [(current, r)]) results2
        else
          results2 ++ [syntheticError current]

/-- DAGExecutor.execute as defined in src: it takes no arbiter decisions
(serve.py passes a second decisions argument that this signature does not
accept) and returns the ad-hoc result dict list. -/
def execute (stubs : Stubs) (dag : PlannerDAG) : List PResult :=
  let keys := firstDedup (DAGValidator.stepIds dag)
  let ideg := keys.map (fun sid => (sid, inDeg0 dag sid))
  let queue := keys.filter (fun sid => inDeg0 dag sid = 0)
  execLoop stubs dag (keys.length + 1) queue ideg [] []

end DAGExecutor

namespace SemanticAnalyst

/-- A result dict the Python synthesize can process without raising: the
type key is present and a present data payload has the shape the branch for
that type reads (chunks for rag, memory_summaries for memory, a success
flag for tool); the error branch and unknown types accept any payload. -/
def wellFormed (r : PResult) : Bool :=
  match r.rtype with
  | none => false
  | some t =>
    match r.data with
    | none => true
    | some d =>
      if t = "rag" then (match d with | PData.rag _ => true | _ => false)
      else if t = "memory" then (match d with | PData.mem _ => true | _ => false)
      else if t = "tool" then (match d with | PData.tool _ => true | _ => false)
      else true

/-- Python str() of a data payload, used only by the error branch. -/
def pdataStr : PData → String
  | PData.raw s => s
  | PData.rag _ => "<rag response>"
  | PData.mem _ => "<memory response>"
  | PData.tool _ => "<tool response>"

/-- The formatted line for one RAG chunk. -/
def chunkLine (c : Chunk) : String :=
  "- " ++ c.text ++ " (Source: " ++ c.source ++ ", Reliability: " ++ c.score ++ ")"

/-- The identity partition, in result order. -/
def identityLines (rs : List PResult) : List String :=
  (rs.map (fun r =>
    match r.rtype, r.data with
    | some t, some (PData.mem m) =>
      if t = "memory" then m.memory_summaries.map (fun s => "- " ++ s) else []
    | _, _ => [])).flatten

/-- The external facts partition, in result order. -/
def externalFacts (rs : List PResult) : List String :=
  (rs.map (fun r =>
    match r.rtype, r.data with
    | some t, some (PData.rag d) =>
      if t = "rag" then d.chunks.map chunkLine else []
    | _, _ => [])).flatten

/-- The system execution partition, in result order. -/
def systemLines (rs : List PResult) : List String :=
  (rs.map (fun r =>
    match r.rtype, r.data with
    | some t, some d =>
      if t = "tool" then
        match d with
        | PData.tool resp =>
          [if resp.success then "- Action: " ++ resp.output
           else "- Action FAILED: " ++ resp.error]
        | _ => []
      else if t = "error" then ["- System ERROR: " ++ pdataStr d]
      else []
    | _, _ => [])).flatten

/-- SemanticAnalyst.synthesize: none models the Python call raising (a dict
without a type key, or a payload of the wrong shape for its type); otherwise
the analysis text and the needs_more_data flag. -/
def synthesize (rs : List PResult) : Option (String × Bool) :=
  if rs.all wellFormed then
    let identity := identityLines rs
    let external := externalFacts rs
    let system := systemLines rs
    let analysis :=
      (if identity.isEmpty then [] else ["### IDENTITY & PREFERENCES"] ++ identity) ++
      (if external.isEmpty then [] else ["\n### EXTERNAL ENRICHMENT (RAG)"] ++ external) ++
      (if system.isEmpty then [] else ["\n### SYSTEM EXECUTION"] ++ system)
    let analysisStr :=
      if analysis.isEmpty then "No significant context found."
      else String.intercalate "\n" analysis
    let ragAttempted := rs.any (fun r => decide (r.rtype = some "rag"))
    let ragSucceeded := rs.any (fun r =>
      decide (r.rtype = some "rag") && decide (r.success = some true))
    some (analysisStr, ragAttempted && external.isEmpty && ragSucceeded)
  else none

end SemanticAnalyst

namespace TaskPlanner

/-- One step object of the parsed plan JSON; absent keys are none. -/
structure JStep where
  step_id : Option String
  description : Option String
  action_id : Option String
  params : Option (List (String × String))
  depends_on : Option (List String)
deriving DecidableEq, Repr

/-- The parsed plan JSON object. -/
structure PlanJson where
  goal : Option String
  steps : List JStep
deriving DecidableEq, Repr

/-- Index of the first occurrence of a character. -/
def firstIdx (c : Char) : List Char → Option Nat
  | [] => none
  | x :: xs => if x = c then some 0 else (firstIdx c xs).map (fun i => i + 1)

/-- Index of the last occurrence of a character. -/
def lastIdx (c : Char) (l : List Char) : Option Nat :=
  (firstIdx c l.reverse).map (fun i => l.length - 1 - i)

/-- The binary JSON extraction of TaskPlanner.execute_plan: the substring
between the first opening brace and the last closing brace, none when either
is missing (the ValueError path). -/
def extractJson (raw : String) : Option String :=
  let l := raw.toList
  match firstIdx (Char.ofNat 123) l, lastIdx (Char.ofNat 125) l with
  | some s, some e => some (String.mk ((l.drop s).take (e + 1 - s)))
  | _, _ => none

/-- The proto mapping loop: defaults S_k for a missing step id (k counts the
steps already added, the new one included), No description, CONVERSE action,
empty params and dependencies; the planner never sets a condition. -/
def mapSteps : Nat → List JStep → List PlannerStep
  | _, [] => []
  | k, s :: rest =>
    ⟨s.step_id.getD ("S_" ++ toString (k + 1)),
     s.description.getD "No description",
     ⟨s.action_id.getD "CONVERSE", s.params.getD [], s.depends_on.getD [], none⟩⟩
      :: mapSteps (k + 1) rest

/-- The DAG built from the parsed plan JSON. -/
def mapToDag (pj : PlanJson) : PlannerDAG :=
  ⟨pj.goal.getD "Resolved", mapSteps 0 pj.steps⟩

/-- TaskPlanner._fallback_dag: a single FS_LIST step for TOOL_ACTION with
list or files in the lowercased text, else a single MEMORY_GET step. -/
def fallback_dag (intent : Intent) (user_msg : String) : PlannerDAG :=
  let base : List PlannerStep :=
    if intent = Intent.TOOL_ACTION ∧
        (strContains (lowerStr user_msg) "list" = true ∨
         strContains (lowerStr user_msg) "files" = true) then
      [⟨"FALLBACK_LIST", "", ⟨"FS_LIST", [], [], none⟩⟩]
    else []
  ⟨"Fallback Plan",
   if base.isEmpty then [⟨"FALLBACK_QUERY", "", ⟨"MEMORY_GET", [], [], none⟩⟩] else base⟩

/-- TaskPlanner.execute_plan of brain/planner/planner.py.  The single LLM
call is abstracted by its outcome (error models any request exception, the
prompt - template plus optional feedback paragraph - does not otherwise
affect control flow, so the unused feedback argument only documents the
signature); parse abstracts the quote-repair plus json.loads step on the
extracted substring, error modelling any parsing exception. -/
def execute_plan (llm : Except Unit String)
    (parse : String → Except Unit PlanJson) (registry : List String)
    (intent : Intent) (user_msg : String) (_feedback : Option String) :
    PlannerDAG :=
  if intent = Intent.CONVERSE then ⟨"Conversational", []⟩
  else
    match llm with
    | Except.error _ => fallback_dag intent user_msg
    | Except.ok payload =>
      match extractJson (trimStr payload) with
      | none => fallback_dag intent user_msg
      | some sub =>
        match parse sub with
        | Except.error _ => fallback_dag intent user_msg
        | Except.ok pj =>
          let dag := mapToDag pj
          if (DAGValidator.validate registry dag).fst then dag
          else fallback_dag intent user_msg

end TaskPlanner

namespace IntentRouter

/-- Word characters for the regex word boundary, ASCII view. -/
def wordChar (c : Char) : Bool := c.isAlphanum || c = '_'

/-- Whether the character before the match position allows a boundary. -/
def prevOk : Option Char → Bool
  | none => true
  | some c => !(wordChar c)

/-- Whether the keyword matches at the current position with a closing word
boundary. -/
def wordAt (kw s : List Char) : Bool :=
  kw.isPrefixOf s &&
    (match s.drop kw.length with
     | [] => true
     | c :: _ => !(wordChar c))

/-- Scan for a whole-word occurrence of the keyword, tracking the previous
character for the opening boundary. -/
def kwScan (kw : List Char) : Option Char → List Char → Bool
  | prev, [] => prevOk prev && wordAt kw []
  | prev, c :: rest => (prevOk prev && wordAt kw (c :: rest)) || kwScan kw (some c) rest

/-- Case-insensitive whole-word search of one trigger keyword. -/
def matchesKeyword (text : String) (kw : String) : Bool :=
  kwScan kw.data none (lowerStr text).data

/-- The ordered trigger list of IntentRouter.__init__, each pattern given by
its alternation keywords. -/
def triggers : List (List String × Intent) :=
  [(["stock", "price", "market", "news", "weather"], Intent.REALTIME_SEARCH),
   (["delete", "move", "open", "restart", "run"], Intent.TOOL_ACTION),
   (["remember", "history", "like", "feel", "forgot"], Intent.MEMORY_QUERY)]

/-- Whether one trigger pattern matches the text. -/
def patternMatches (kws : List String) (text : String) : Bool :=
  kws.any (matchesKeyword text)

/-- The label-to-intent mapping applied to the stripped uppercased LLM
output, defaulting to CONVERSE. -/
def classifyLabel (s : String) : Intent :=
  let t := upperStr (trimStr s)
  if t = "CONVERSE" then Intent.CONVERSE
  else if t = "REALTIME_SEARCH" then Intent.REALTIME_SEARCH
  else if t = "TOOL_ACTION" then Intent.TOOL_ACTION
  else if t = "MEMORY_QUERY" then Intent.MEMORY_QUERY
  else Intent.CONVERSE

/-- IntentRouter.semantic_fallback: a network call to the local LLM,
abstracted by an oracle from the text to the response content; any request
exception yields CONVERSE. -/
def semantic_fallback (llm : String → Except Unit String) (text : String) : Intent :=
  match llm text with
  | Except.error _ => Intent.CONVERSE
  | Except.ok content => classifyLabel content

/-- IntentRouter.route: first matching trigger wins, otherwise the semantic
fallback LLM call decides. -/
def route (llm : String → Except Unit String) (text : String) : Intent :=
  match triggers.find? (fun p => patternMatches p.fst text) with
  | some p => p.snd
  | none => semantic_fallback llm text

end IntentRouter

/-- UserMessage proto fields ChatStream reads. -/
structure UserMessage where
  session_id : String
  text : String
  mode : String
  location : String
deriving DecidableEq, Repr

/-- ContextResponse of MemoryService.GetContext. -/
structure MemCtx where
  memory_summaries : List String
deriving DecidableEq, Repr

/-- ResultPacket: the one-way valve input of the narrator. -/
structure ResultPacket where
  user_query : String
  results : List PResult
  mode : String
  location : String

/-- The external oracles ChatStream consults: router LLM, memory stub,
planner LLM response and JSON parse, executor stubs and the persona
narrator. -/
structure BrainOracles where
  routeLlm : String → Except Unit String
  memoryCtx : String → MemCtx
  plannerLlm : Except Unit String
  parse : String → Except Unit TaskPlanner.PlanJson
  stubs : Stubs
  persona : ResultPacket → MemCtx → String

/-- The observable outcome of one ChatStream iteration, with the list of
(intent, text, feedback) planner invocations recorded. -/
structure ChatOutcome where
  intent : Intent
  plannerCalls : List (Intent × String × Option String)
  results : List PResult
  response : String

/-- BrainOrchestrator.ChatStream for one incoming request: route, fetch
memory context, plan once with no feedback, arbitrate, execute, narrate the
packet.  serve.py passes the arbiter decisions as a second argument to
execute, which the executor in src does not accept; the embedding follows
the executor as defined, so the decisions are computed and dropped. -/
def ChatStream (o : BrainOracles) (req : UserMessage) : ChatOutcome :=
  let intent := IntentRouter.route o.routeLlm req.text
  let memctx := o.memoryCtx req.session_id
  let dag := TaskPlanner.execute_plan o.plannerLlm o.parse registryIds intent req.text none
  let _decisions := DecisionArbiter.evaluate_plan dag
  let results := DAGExecutor.execute o.stubs dag
  let packet : ResultPacket := ⟨req.text, results, req.mode, req.location⟩
  ⟨intent, [(intent, req.text, none)], results, o.persona packet memctx⟩

section Fixtures

/-- A one-field step builder used by the concrete test DAGs. -/
def mkStep (sid aid : String) (deps : List String) : PlannerStep :=
  ⟨sid, "", ⟨aid, [], deps, none⟩⟩

/-- Stubs whose calls all succeed. -/
def stubsOk : Stubs :=
  ⟨fun _ => Except.ok ⟨["m1"]⟩, fun _ => Except.ok ⟨[]⟩,
   fun _ _ => Except.ok ⟨true, "done", ""⟩⟩

/-- Stubs whose client calls report failure on every attempt. -/
def stubsFail : Stubs :=
  ⟨fun _ => Except.ok ⟨[]⟩, fun _ => Except.ok ⟨[]⟩,
   fun _ _ => Except.ok ⟨false, "", "boom"⟩⟩

/-- One FS_DELETE step; the arbiter verdict for it is CONFIRM. -/
def dagConfirm : PlannerDAG := ⟨"g", [mkStep "S1" "FS_DELETE" []]⟩

/-- One DELETE_ALL_DISKS step; the arbiter verdict for it is DENY. -/
def dagDeny : PlannerDAG := ⟨"g", [mkStep "S1" "DELETE_ALL_DISKS" []]⟩

/-- One FS_LIST step (a registered tool). -/
def dagFS : PlannerDAG := ⟨"g", [mkStep "S1" "FS_LIST" []]⟩

/-- A DAG with a root R beside the two-cycle A-B; no root reaches the
cycle. -/
def cexCycleDag : PlannerDAG :=
  ⟨"g", [mkStep "R" "MEMORY_GET" [], mkStep "A" "MEMORY_GET" ["B"],
         mkStep "B" "MEMORY_GET" ["A"]]⟩

/-- Two distinct steps sharing the step id X. -/
def dupDag : PlannerDAG :=
  ⟨"g", [⟨"X", "a", ⟨"MEMORY_GET", [], [], none⟩⟩,
         ⟨"X", "b", ⟨"MEMORY_GET", [], [], none⟩⟩]⟩

/-- Oracles for the replanning scenario: the planner LLM yields a plan with
one RAG_SEARCH step and the RAG stub succeeds with zero chunks. -/
def replanOracles : BrainOracles :=
  ⟨fun _ => Except.error (), fun _ => ⟨[]⟩, Except.ok "\x7b\x7d",
   fun _ => Except.ok ⟨some "g", [⟨some "S1", some "d", some "RAG_SEARCH", none, none⟩]⟩,
   ⟨fun _ => Except.ok ⟨[]⟩, fun _ => Except.ok ⟨[]⟩, fun _ _ => Except.ok ⟨true, "", ""⟩⟩,
   fun _ _ => "resp"⟩

/-- The request of the replanning scenario. -/
def replanReq : UserMessage := ⟨"s", "what is the weather", "home", "here"⟩

end Fixtures

/-- C1: the executor in src enforces no arbiter gate.  The arbiter returns
CONFIRM for the FS_DELETE step and DENY for the DELETE_ALL_DISKS step, yet
execute (which accepts no decisions) dispatches both: the first produces a
dispatched tool result instead of AWAITING_CONFIRMATION, the second an
attempted dispatch (two error entries) instead of a single DENIED. -/
theorem executor_ignores_arbiter_gate :
    DecisionArbiter.evaluate_plan dagConfirm =
      [⟨"S1", "FS_DELETE", Verdict.CONFIRM, 4/5,
        "Potentially destructive action requires manual confirmation."⟩] ∧
    DAGExecutor.execute stubsOk dagConfirm =
      [⟨some "tool", some true, some (PData.tool ⟨true, "done", ""⟩), none, none⟩] ∧
    DecisionArbiter.evaluate_plan dagDeny =
      [⟨"S1", "DELETE_ALL_DISKS", Verdict.DENY, 1,
        "Critical system safety violation."⟩] ∧
    (DAGExecutor.execute stubsOk dagDeny).length = 2 := by
  refine ⟨?_, ?_, ?_, ?_⟩ <;> rfl

/-- C5: for the accepted one-step DAG whose tool keeps failing, execute
emits two list entries (the failed result dict and the synthetic error
entry), so the result list is longer than the step list. -/
theorem executor_two_results_single_step :
    (DAGValidator.validate registryIds dagFS).fst = true ∧
    dagFS.steps.length = 1 ∧
    DAGExecutor.execute stubsFail dagFS =
      [⟨some "tool", some false, some (PData.tool ⟨false, "", "boom"⟩), none, none⟩,
       DAGExecutor.syntheticError "S1"] ∧
    (DAGExecutor.execute stubsFail dagFS).length = 2 := by
  refine ⟨?_, ?_, ?_, ?_⟩ <;> rfl

/-- C6: the registry records destination ops for OPS_RESTART, yet
_dispatch_step answers with the Unknown-action error dict for it, for every
stub set alike: no ops stub exists to receive the call. -/
theorem dispatch_ignores_registry_destination :
    registryDest "OPS_RESTART" = some Dest.ops ∧
    ∀ stubs : Stubs,
      DAGExecutor.dispatchStep stubs ⟨"S1", "", ⟨"OPS_RESTART", [], [], none⟩⟩ =
        ⟨some "error", some false, some (PData.raw "Unknown action: OPS_RESTART"),
         none, none⟩ := by
  exact ⟨rfl, fun _ => rfl⟩

/-- C10: a DAG with two distinct steps sharing one step id (both registered,
no dependencies, two nodes) passes validation. -/
theorem validator_accepts_duplicate_ids :
    dupDag.steps.length = 2 ∧
    (dupDag.steps.get ⟨0, by decide⟩).step_id = (dupDag.steps.get ⟨1, by decide⟩).step_id ∧
    dupDag.steps.get ⟨0, by decide⟩ ≠ dupDag.steps.get ⟨1, by decide⟩ ∧
    (DAGValidator.validate registryIds dupDag).fst = true := by
  refine ⟨rfl, rfl, by decide, rfl⟩

/-- C3 counterexample: with an empty completed map the condition evaluates
to true (the claim demands false), and with a mentioned failed step behind a
mentioned successful one it also evaluates to true (the claim demands that
every referenced step must have succeeded). -/
theorem condition_fail_open_cex :
    DAGExecutor.evaluate_condition "STEP_01.success" [] = true ∧
    DAGExecutor.evaluate_condition "A and B"
      [("A", ⟨some "tool", some true, none, none, none⟩),
       ("B", ⟨some "tool", some false, none, none, none⟩)] = true := by
  exact ⟨rfl, rfl⟩

/-- C7 counterexample: on a text no trigger matches, route consults the
fallback LLM, so two evaluations can return different intents and the
result need not be CONVERSE. -/
theorem route_fallback_nondeterminism_cex :
    IntentRouter.route (fun _ => Except.ok "TOOL_ACTION") "zzz" = Intent.TOOL_ACTION ∧
    IntentRouter.route (fun _ => Except.error ()) "zzz" = Intent.CONVERSE ∧
    Intent.TOOL_ACTION ≠ Intent.CONVERSE := by
  refine ⟨rfl, rfl, by decide⟩

/-- C2 counterexample: a message whose executed plan leaves the analyst
reporting insufficiency (a successful RAG step, zero chunks) still produces
exactly one planner invocation, with no feedback. -/
theorem chatstream_no_replan_cex :
    (ChatStream replanOracles replanReq).plannerCalls =
      [(Intent.REALTIME_SEARCH, "what is the weather", none)] ∧
    SemanticAnalyst.synthesize (ChatStream replanOracles replanReq).results =
      some ("No significant context found.", true) := by
  exact ⟨rfl, rfl⟩

/-- C2 amended: ChatStream is single shot per request: the planner is
invoked exactly once, with the routed intent, the request text and no
feedback, and the emitted results come from executing that single plan. -/
theorem chatstream_single_planner_invocation (o : BrainOracles) (req : UserMessage) :
    (ChatStream o req).plannerCalls =
      [(IntentRouter.route o.routeLlm req.text, req.text, none)] ∧
    (ChatStream o req).results =
      DAGExecutor.execute o.stubs
        (TaskPlanner.execute_plan o.plannerLlm o.parse registryIds
          (IntentRouter.route o.routeLlm req.text) req.text none) := ⟨rfl, rfl⟩


namespace DAGValidator

/-- A bad walk: some walk starting at the node repeats a node or touches
the visited set; exactly the situations in which get_depth raises. -/
def BadFrom (dag : PlannerDAG) (visited : List String) (node : String) : Prop :=
  ∃ l, List.Chain (Edge dag) node l ∧
    ¬ ((node :: l).Nodup ∧ ∀ x ∈ node :: l, x ∉ visited)

/-- Adjacency targets are step ids. -/
lemma mem_adjOf_stepIds (dag : PlannerDAG) {u v : String}
    (h : v ∈ adjOf dag u) : v ∈ stepIds dag := by
  simp only [adjOf, List.mem_flatten, List.mem_map] at h
  obtain ⟨_, ⟨s, hs, rfl⟩, hv⟩ := h
  simp only [List.mem_filterMap] at hv
  obtain ⟨d, _, hd⟩ := hv
  have hvs : v = s.step_id := by
    by_cases hdu : d = u
    · rw [if_pos hdu] at hd
      exact (Option.some.injEq _ _ ▸ hd).symm
    · rw [if_neg hdu] at hd
      cases hd
  exact hvs ▸ List.mem_map_of_mem _ hs

/-- Roots are step ids. -/
lemma mem_rootsOf_stepIds (dag : PlannerDAG) {r : String}
    (h : r ∈ rootsOf dag) : r ∈ stepIds dag := by
  simp only [rootsOf, List.mem_map, List.mem_filter] at h
  obtain ⟨s, ⟨hs, _⟩, rfl⟩ := h
  exact List.mem_map_of_mem _ hs

/-- Number of step ids outside the visited set, with multiplicity; the
termination measure of the traversal. -/
def unvis (dag : PlannerDAG) (visited : List String) : Nat :=
  ((stepIds dag).filter (fun x => decide (x ∉ visited))).length

lemma length_filter_mono {p q : α → Bool} (l : List α)
    (h : ∀ a, p a = true → q a = true) :
    (l.filter p).length ≤ (l.filter q).length := by
  induction l with
  | nil => simp
  | cons a t ih =>
    by_cases hp : p a = true
    · simp only [List.filter_cons, hp, h a hp, if_true, List.length_cons]
      omega
    · have hp2 : p a = false := by
        cases hpa : p a
        · rfl
        · exact absurd hpa hp
      simp only [List.filter_cons, hp2, Bool.false_eq_true, if_false]
      by_cases hq : q a = true
      · simp only [hq, if_true, List.length_cons]
        omega
      · have hq2 : q a = false := by
          cases hqa : q a
          · rfl
          · exact absurd hqa hq
        simp only [hq2, Bool.false_eq_true, if_false]
        exact ih

lemma filter_not_mem_cons_lt {l visited : List String} {node : String}
    (hn : node ∈ l) (hnv : node ∉ visited) :
    (l.filter (fun x => decide (x ∉ node :: visited))).length <
    (l.filter (fun x => decide (x ∉ visited))).length := by
  have hmono : ∀ t : List String,
      (t.filter (fun x => decide (x ∉ node :: visited))).length ≤
      (t.filter (fun x => decide (x ∉ visited))).length := by
    intro t
    refine length_filter_mono t (fun b hb => ?_)
    simp only [decide_eq_true_eq] at hb ⊢
    exact fun hbv => hb (List.mem_cons_of_mem _ hbv)
  induction l with
  | nil => cases hn
  | cons a t ih =>
    by_cases ha : a = node
    · subst ha
      have e1 : (decide (a ∉ a :: visited)) = false := by simp
      have e2 : (decide (a ∉ visited)) = true := by simpa using hnv
      simp only [List.filter_cons, e1, e2, Bool.false_eq_true, if_false, if_true,
        List.length_cons]
      exact Nat.lt_succ_of_le (hmono t)
    · have hmem : node ∈ t := by
        rcases List.mem_cons.mp hn with h | h
        · exact absurd h.symm ha
        · exact h
      have e : (decide (a ∉ node :: visited)) = (decide (a ∉ visited)) := by
        by_cases hav : a ∈ visited
        · simp [hav]
        · simp [List.mem_cons, ha, hav]
      simp only [List.filter_cons, e]
      by_cases hkeep : (decide (a ∉ visited)) = true
      · simp only [hkeep, if_true, List.length_cons]
        exact Nat.succ_lt_succ (ih hmem)
      · have hkeep2 : (decide (a ∉ visited)) = false := by
          cases hk : (decide (a ∉ visited))
          · rfl
          · exact absurd hk hkeep
        simp only [hkeep2, Bool.false_eq_true, if_false]
        exact ih hmem

lemma unvis_cons_lt (dag : PlannerDAG) {visited : List String} {node : String}
    (hn : node ∈ stepIds dag) (hnv : node ∉ visited) :
    unvis dag (node :: visited) < unvis dag visited :=
  filter_not_mem_cons_lt hn hnv

end DAGValidator

section MapMELemmas

variable {α β : Type _} {f : α → Except Unit β}

lemma mapME_error_iff :
    ∀ {l : List α}, mapME f l = Except.error () ↔ ∃ x ∈ l, f x = Except.error () := by
  intro l
  induction l with
  | nil => simp [mapME]
  | cons x xs ih =>
    simp only [mapME]
    cases hfx : f x with
    | error e =>
      cases e
      simp only [List.mem_cons]
      constructor
      · intro _
        exact ⟨x, Or.inl rfl, hfx⟩
      · intro _
        trivial
    | ok y =>
      cases hrest : mapME f xs with
      | error e =>
        cases e
        simp only [List.mem_cons]
        constructor
        · intro _
          obtain ⟨z, hz, hfz⟩ := ih.mp hrest
          exact ⟨z, Or.inr hz, hfz⟩
        · intro _
          trivial
      | ok ys =>
        constructor
        · intro h
          cases h
        · rintro ⟨z, hz, hfz⟩
          rcases List.mem_cons.mp hz with rfl | hzt
          · rw [hfx] at hfz
            cases hfz
          · have := ih.mpr ⟨z, hzt, hfz⟩
            rw [hrest] at this
            cases this

lemma mapME_ok_mem_left :
    ∀ {l : List α} {ds : List β}, mapME f l = Except.ok ds →
      ∀ x ∈ l, ∃ y ∈ ds, f x = Except.ok y := by
  intro l
  induction l with
  | nil => intro ds _ x hx; cases hx
  | cons a t ih =>
    intro ds h x hx
    simp only [mapME] at h
    cases hfa : f a with
    | error e => rw [hfa] at h; cases h
    | ok y =>
      rw [hfa] at h
      cases hrest : mapME f t with
      | error e => rw [hrest] at h; cases h
      | ok ys =>
        rw [hrest] at h
        cases h
        rcases List.mem_cons.mp hx with rfl | hxt
        · exact ⟨y, List.mem_cons_self _ _, hfa⟩
        · obtain ⟨z, hz, hfz⟩ := ih hrest x hxt
          exact ⟨z, List.mem_cons_of_mem _ hz, hfz⟩

lemma mapME_ok_mem_right :
    ∀ {l : List α} {ds : List β}, mapME f l = Except.ok ds →
      ∀ y ∈ ds, ∃ x ∈ l, f x = Except.ok y := by
  intro l
  induction l with
  | nil =>
    intro ds h y hy
    simp only [mapME] at h
    cases h
    cases hy
  | cons a t ih =>
    intro ds h y hy
    simp only [mapME] at h
    cases hfa : f a with
    | error e => rw [hfa] at h; cases h
    | ok z =>
      rw [hfa] at h
      cases hrest : mapME f t with
      | error e => rw [hrest] at h; cases h
      | ok ys =>
        rw [hrest] at h
        cases h
        rcases List.mem_cons.mp hy with rfl | hyt
        · exact ⟨a, List.mem_cons_self _ _, hfa⟩
        · obtain ⟨x, hx, hfx⟩ := ih hrest y hyt
          exact ⟨x, List.mem_cons_of_mem _ hx, hfx⟩

lemma mapME_ok_of_forall :
    ∀ {l : List α}, (∀ x ∈ l, ∃ y, f x = Except.ok y) →
      ∃ ds, mapME f l = Except.ok ds := by
  intro l
  induction l with
  | nil => intro _; exact ⟨[], rfl⟩
  | cons a t ih =>
    intro h
    obtain ⟨y, hy⟩ := h a (List.mem_cons_self _ _)
    obtain ⟨ds, hds⟩ := ih (fun x hx => h x (List.mem_cons_of_mem _ hx))
    refine ⟨y :: ds, ?_⟩
    simp only [mapME, hy, hds]

lemma mapME_ok_nil_iff :
    ∀ {l : List α} {ds : List β}, mapME f l = Except.ok ds → (ds = [] ↔ l = []) := by
  intro l
  cases l with
  | nil =>
    intro ds h
    simp only [mapME] at h
    cases h
    simp
  | cons a t =>
    intro ds h
    simp only [mapME] at h
    cases hfa : f a with
    | error e => rw [hfa] at h; cases h
    | ok y =>
      rw [hfa] at h
      cases hrest : mapME f t with
      | error e => rw [hrest] at h; cases h
      | ok ys =>
        rw [hrest] at h
        cases h
        simp

end MapMELemmas

section FoldlMaxLemmas

lemma foldl_max_init_le : ∀ (l : List Nat) (a : Nat), a ≤ l.foldl max a := by
  intro l
  induction l with
  | nil => intro a; simp
  | cons x t ih =>
    intro a
    calc a ≤ max a x := Nat.le_max_left a x
    _ ≤ t.foldl max (max a x) := ih (max a x)

lemma foldl_max_le_of_mem : ∀ (l : List Nat) (a x : Nat), x ∈ l → x ≤ l.foldl max a := by
  intro l
  induction l with
  | nil => intro a x hx; cases hx
  | cons b t ih =>
    intro a x hx
    rcases List.mem_cons.mp hx with rfl | hxt
    · calc x ≤ max a x := Nat.le_max_right a x
      _ ≤ t.foldl max (max a x) := foldl_max_init_le t (max a x)
    · exact ih (max a b) x hxt

lemma foldl_max_cases : ∀ (l : List Nat) (a : Nat), l.foldl max a = a ∨ l.foldl max a ∈ l := by
  intro l
  induction l with
  | nil => intro a; left; rfl
  | cons x t ih =>
    intro a
    rcases ih (max a x) with h | h
    · rcases Nat.le_total a x with hax | hxa
      · right
        rw [List.foldl_cons, h, Nat.max_eq_right hax]
        exact List.mem_cons_self _ _
      · left
        rw [List.foldl_cons, h, Nat.max_eq_left hxa]
    · right
      rw [List.foldl_cons]
      exact List.mem_cons_of_mem _ h

lemma foldl_max_le_bound : ∀ (l : List Nat) (a b : Nat), a ≤ b → (∀ x ∈ l, x ≤ b) →
    l.foldl max a ≤ b := by
  intro l
  induction l with
  | nil => intro a b hab _; simpa using hab
  | cons x t ih =>
    intro a b hab h
    rw [List.foldl_cons]
    exact ih (max a x) b (Nat.max_le.mpr ⟨hab, h x (List.mem_cons_self _ _)⟩)
      (fun z hz => h z (List.mem_cons_of_mem _ hz))

end FoldlMaxLemmas

namespace DAGValidator

lemma badFrom_cons_iff (dag : PlannerDAG) {visited : List String} {node : String}
    (hv : node ∉ visited) :
    BadFrom dag visited node ↔
      ∃ nb ∈ adjOf dag node, BadFrom dag (node :: visited) nb := by
  constructor
  · rintro ⟨l, hchain, hbad⟩
    cases l with
    | nil =>
      exfalso
      apply hbad
      refine ⟨List.nodup_singleton node, ?_⟩
      intro x hx
      rw [List.mem_singleton] at hx
      exact hx ▸ hv
    | cons nb l2 =>
      rw [List.chain_cons] at hchain
      refine ⟨nb, hchain.1, l2, hchain.2, ?_⟩
      rintro ⟨hnd, havoid⟩
      apply hbad
      constructor
      · refine List.nodup_cons.mpr ⟨?_, hnd⟩
        intro hmem
        exact (havoid node hmem) (List.mem_cons_self node visited)
      · intro x hx
        rcases List.mem_cons.mp hx with rfl | hx2
        · exact hv
        · intro hxv
          exact (havoid x hx2) (List.mem_cons_of_mem _ hxv)
  · rintro ⟨nb, hnb, l2, hchain, hbad⟩
    refine ⟨nb :: l2, List.chain_cons.mpr ⟨hnb, hchain⟩, ?_⟩
    rintro ⟨hnd, havoid⟩
    apply hbad
    have hnodemem : node ∉ nb :: l2 := (List.nodup_cons.mp hnd).1
    refine ⟨(List.nodup_cons.mp hnd).2, ?_⟩
    intro x hx hxmem
    rcases List.mem_cons.mp hxmem with rfl | hxv
    · exact hnodemem hx
    · exact havoid x (List.mem_cons_of_mem _ hx) hxv

lemma getDepth_error_iff (dag : PlannerDAG) :
    ∀ (fuel : Nat) (visited : List String) (node : String),
      node ∈ stepIds dag → unvis dag visited < fuel →
      (getDepth dag fuel visited node = Except.error () ↔ BadFrom dag visited node) := by
  intro fuel
  induction fuel with
  | zero =>
    intro visited node _ hf
    exact absurd hf (Nat.not_lt_zero _)
  | succ f ih =>
    intro visited node hn hf
    by_cases hv : node ∈ visited
    · simp only [getDepth, if_pos hv]
      constructor
      · intro _
        refine ⟨[], List.Chain.nil, ?_⟩
        rintro ⟨_, havoid⟩
        exact (havoid node (List.mem_singleton_self node)) hv
      · intro _
        trivial
    · have hrec : ∀ nb ∈ adjOf dag node,
          (getDepth dag f (node :: visited) nb = Except.error () ↔
            BadFrom dag (node :: visited) nb) := by
        intro nb hnb
        exact ih (node :: visited) nb (mem_adjOf_stepIds dag hnb)
          (lt_of_lt_of_le (unvis_cons_lt dag hn hv) (Nat.lt_succ_iff.mp hf))
      simp only [getDepth, if_neg hv]
      cases hm : mapME (getDepth dag f (node :: visited)) (adjOf dag node) with
      | error e =>
        cases e
        constructor
        · intro _
          obtain ⟨nb, hnb, herr⟩ := mapME_error_iff.mp hm
          exact (badFrom_cons_iff dag hv).mpr ⟨nb, hnb, (hrec nb hnb).mp herr⟩
        · intro _
          trivial
      | ok ds =>
        constructor
        · intro h
          cases h
        · intro hbad
          exfalso
          obtain ⟨nb, hnb, hbadnb⟩ := (badFrom_cons_iff dag hv).mp hbad
          have herr : mapME (getDepth dag f (node :: visited)) (adjOf dag node) =
              Except.error () :=
            mapME_error_iff.mpr ⟨nb, hnb, (hrec nb hnb).mpr hbadnb⟩
          rw [hm] at herr
          cases herr

lemma getDepth_ok_spec (dag : PlannerDAG) :
    ∀ (fuel : Nat) (visited : List String) (node : String) (d : Nat),
      node ∈ stepIds dag → unvis dag visited < fuel →
      getDepth dag fuel visited node = Except.ok d →
      ((∃ l, List.Chain (Edge dag) node l ∧ (node :: l).length = d) ∧
       (∀ l, List.Chain (Edge dag) node l → (node :: l).length ≤ d)) := by
  intro fuel
  induction fuel with
  | zero =>
    intro visited node d _ hf _
    exact absurd hf (Nat.not_lt_zero _)
  | succ f ih =>
    intro visited node d hn hf hok
    by_cases hv : node ∈ visited
    · rw [getDepth.eq_def] at hok
      simp only [if_pos hv] at hok
      cases hok
    · have hrecspec : ∀ nb ∈ adjOf dag node, ∀ dnb,
          getDepth dag f (node :: visited) nb = Except.ok dnb →
          ((∃ l, List.Chain (Edge dag) nb l ∧ (nb :: l).length = dnb) ∧
           (∀ l, List.Chain (Edge dag) nb l → (nb :: l).length ≤ dnb)) := by
        intro nb hnb dnb h
        exact ih (node :: visited) nb dnb (mem_adjOf_stepIds dag hnb)
          (lt_of_lt_of_le (unvis_cons_lt dag hn hv) (Nat.lt_succ_iff.mp hf)) h
      rw [getDepth.eq_def] at hok
      simp only [if_neg hv] at hok
      cases hm : mapME (getDepth dag f (node :: visited)) (adjOf dag node) with
      | error e =>
        rw [hm] at hok
        cases hok
      | ok ds =>
        rw [hm] at hok
        have hd : 1 + ds.foldl max 0 = d := by
          injection hok
        by_cases hds : ds = []
        · subst hds
          have hadj : adjOf dag node = [] := (mapME_ok_nil_iff hm).mp rfl
          refine ⟨⟨[], List.Chain.nil, by simpa using hd⟩, ?_⟩
          intro l hchain
          cases l with
          | nil => simp; omega
          | cons v l2 =>
            rw [List.chain_cons] at hchain
            have hvmem : v ∈ adjOf dag node := hchain.1
            rw [hadj] at hvmem
            cases hvmem
        · have hfoldmem : ds.foldl max 0 ∈ ds := by
            rcases foldl_max_cases ds 0 with h0 | hmem
            · exfalso
              obtain ⟨y, hy⟩ := List.exists_mem_of_ne_nil ds hds
              obtain ⟨nb, hnb, hnbok⟩ := mapME_ok_mem_right hm y hy
              obtain ⟨⟨l, _, hlen⟩, _⟩ := hrecspec nb hnb y hnbok
              have hyle := foldl_max_le_of_mem ds 0 y hy
              rw [h0] at hyle
              simp only [List.length_cons] at hlen
              omega
            · exact hmem
          obtain ⟨nb, hnb, hnbok⟩ := mapME_ok_mem_right hm _ hfoldmem
          obtain ⟨⟨l, hl, hlen⟩, _⟩ := hrecspec nb hnb _ hnbok
          constructor
          · refine ⟨nb :: l, List.chain_cons.mpr ⟨hnb, hl⟩, ?_⟩
            simp only [List.length_cons] at hlen ⊢
            omega
          · intro l2 hchain2
            cases l2 with
            | nil => simp; omega
            | cons v t =>
              rw [List.chain_cons] at hchain2
              obtain ⟨dv, hdv, hvok⟩ := mapME_ok_mem_left hm v hchain2.1
              have hb := (hrecspec v hchain2.1 dv hvok).2 t hchain2.2
              have hdvle := foldl_max_le_of_mem ds 0 dv hdv
              simp only [List.length_cons] at hb ⊢
              omega

end DAGValidator

namespace DAGValidator

lemma badFrom_nil_iff (dag : PlannerDAG) (r : String) :
    BadFrom dag [] r ↔ ∃ l, List.Chain (Edge dag) r l ∧ ¬ (r :: l).Nodup := by
  unfold BadFrom
  constructor
  · rintro ⟨l, hchain, hbad⟩
    refine ⟨l, hchain, ?_⟩
    intro hnd
    exact hbad ⟨hnd, fun x _ => List.not_mem_nil x⟩
  · rintro ⟨l, hchain, hnd⟩
    refine ⟨l, hchain, ?_⟩
    rintro ⟨h, _⟩
    exact hnd h

lemma unvis_nil_lt (dag : PlannerDAG) : unvis dag [] < dag.steps.length + 1 := by
  have h : unvis dag [] ≤ (stepIds dag).length := by
    unfold unvis
    exact List.length_filter_le _ _
  have h2 : (stepIds dag).length = dag.steps.length := List.length_map _ _
  omega

lemma calcMaxDepth_ok_iff (dag : PlannerDAG) :
    (∃ d, calcMaxDepth dag = Except.ok d ∧ d ≤ MAX_DEPTH) ↔
      ((∀ s ∈ dag.steps, ∀ dep ∈ s.intent.depends_on, dep ∈ stepIds dag) ∧
       rootsOf dag ≠ [] ∧
       (∀ r ∈ rootsOf dag, ∀ l, List.Chain (Edge dag) r l → (r :: l).Nodup) ∧
       (∀ r ∈ rootsOf dag, ∀ l, List.Chain (Edge dag) r l →
         (r :: l).length ≤ MAX_DEPTH)) := by
  constructor
  · rintro ⟨d, hok, hle⟩
    unfold calcMaxDepth at hok
    by_cases hmiss : dag.steps.any (fun s =>
        s.intent.depends_on.any (fun dep => !((stepIds dag).contains dep))) = true
    · rw [if_pos hmiss] at hok
      cases hok
    · rw [if_neg hmiss] at hok
      have hdeps : ∀ s ∈ dag.steps, ∀ dep ∈ s.intent.depends_on,
          dep ∈ stepIds dag := by
        intro s hs dep hdep
        by_contra hno
        apply hmiss
        rw [List.any_eq_true]
        refine ⟨s, hs, ?_⟩
        rw [List.any_eq_true]
        refine ⟨dep, hdep, ?_⟩
        simp only [Bool.not_eq_true']
        cases hc : (stepIds dag).contains dep
        · rfl
        · exact absurd (List.elem_iff.mp hc) hno
      by_cases hroots : (rootsOf dag).isEmpty = true
      · rw [if_pos hroots] at hok
        cases hok
      · rw [if_neg hroots] at hok
        have hrne : rootsOf dag ≠ [] := by
          intro h
          rw [h] at hroots
          exact hroots rfl
        cases hm : mapME (getDepth dag (dag.steps.length + 1) []) (rootsOf dag) with
        | error e =>
          rw [hm] at hok
          cases hok
        | ok ds =>
          rw [hm] at hok
          have hd : ds.foldl max 0 = d := by injection hok
          refine ⟨hdeps, hrne, ?_, ?_⟩
          · intro r hr l hchain
            obtain ⟨dr, _, hrok⟩ := mapME_ok_mem_left hm r hr
            by_contra hnd
            have hbad : BadFrom dag [] r := (badFrom_nil_iff dag r).mpr ⟨l, hchain, hnd⟩
            have herr := (getDepth_error_iff dag _ [] r
              (mem_rootsOf_stepIds dag hr) (unvis_nil_lt dag)).mpr hbad
            rw [hrok] at herr
            cases herr
          · intro r hr l hchain
            obtain ⟨dr, hdr, hrok⟩ := mapME_ok_mem_left hm r hr
            have hspec := getDepth_ok_spec dag _ [] r dr
              (mem_rootsOf_stepIds dag hr) (unvis_nil_lt dag) hrok
            have h1 := hspec.2 l hchain
            have h2 := foldl_max_le_of_mem ds 0 dr hdr
            omega
  · rintro ⟨hdeps, hroots, hnodup, hbound⟩
    unfold calcMaxDepth
    have hmiss : dag.steps.any (fun s =>
        s.intent.depends_on.any (fun dep => !((stepIds dag).contains dep))) = false := by
      rw [Bool.eq_false_iff]
      intro hany
      rw [List.any_eq_true] at hany
      obtain ⟨s, hs, hany2⟩ := hany
      rw [List.any_eq_true] at hany2
      obtain ⟨dep, hdep, hpred⟩ := hany2
      rw [Bool.not_eq_true'] at hpred
      have hcontains : (stepIds dag).contains dep = true :=
        List.elem_iff.mpr (hdeps s hs dep hdep)
      rw [hpred] at hcontains
      cases hcontains
    rw [if_neg (by rw [hmiss]; intro h; cases h)]
    have hre : (rootsOf dag).isEmpty = false := by
      cases he : (rootsOf dag).isEmpty
      · rfl
      · exact absurd (List.isEmpty_iff.mp he) hroots
    rw [if_neg (by rw [hre]; intro h; cases h)]
    have hallok : ∀ r ∈ rootsOf dag,
        ∃ dr, getDepth dag (dag.steps.length + 1) [] r = Except.ok dr := by
      intro r hr
      cases hres : getDepth dag (dag.steps.length + 1) [] r with
      | error e =>
        cases e
        exfalso
        have hbad := (getDepth_error_iff dag _ [] r
          (mem_rootsOf_stepIds dag hr) (unvis_nil_lt dag)).mp hres
        obtain ⟨l, hchain, hnd⟩ := (badFrom_nil_iff dag r).mp hbad
        exact hnd (hnodup r hr l hchain)
      | ok dr => exact ⟨dr, rfl⟩
    obtain ⟨ds, hds⟩ := mapME_ok_of_forall hallok
    rw [hds]
    refine ⟨ds.foldl max 0, rfl, ?_⟩
    refine foldl_max_le_bound ds 0 MAX_DEPTH (by omega) ?_
    intro x hx
    obtain ⟨r, hr, hrok⟩ := mapME_ok_mem_right hds x hx
    obtain ⟨⟨l, hchain, hlen⟩, _⟩ := getDepth_ok_spec dag _ [] r x
      (mem_rootsOf_stepIds dag hr) (unvis_nil_lt dag) hrok
    have := hbound r hr l hchain
    omega

end DAGValidator

/-- C4 amended: validate accepts iff the DAG is non-empty, within the node
budget, tool-whitelisted, with all dependencies resolving, at least one
root, no walk from a root revisiting a node, and every walk from a root
within the depth budget.  Cycles (and over-deep paths) not reachable from
any root are not detected. -/
theorem validator_accepts_iff (registry : List String) (dag : PlannerDAG) :
    (DAGValidator.validate registry dag).fst = true ↔
      (dag.steps ≠ [] ∧ dag.steps.length ≤ DAGValidator.MAX_NODES ∧
       (∀ s ∈ dag.steps, s.intent.action_id ∈ registry) ∧
       (∀ s ∈ dag.steps, ∀ dep ∈ s.intent.depends_on,
         dep ∈ DAGValidator.stepIds dag) ∧
       DAGValidator.rootsOf dag ≠ [] ∧
       (∀ r ∈ DAGValidator.rootsOf dag, ∀ l,
         List.Chain (DAGValidator.Edge dag) r l → (r :: l).Nodup) ∧
       (∀ r ∈ DAGValidator.rootsOf dag, ∀ l,
         List.Chain (DAGValidator.Edge dag) r l →
           (r :: l).length ≤ DAGValidator.MAX_DEPTH)) := by
  unfold DAGValidator.validate
  by_cases h1 : dag.steps.length > DAGValidator.MAX_NODES
  · rw [if_pos h1]
    constructor
    · intro h
      cases h
    · rintro ⟨_, hlen, _⟩
      exact absurd h1 (Nat.not_lt.mpr hlen)
  · rw [if_neg h1]
    have hlen : dag.steps.length ≤ DAGValidator.MAX_NODES := Nat.not_lt.mp h1
    by_cases h2 : dag.steps.isEmpty = true
    · rw [if_pos h2]
      constructor
      · intro h
        cases h
      · rintro ⟨hne, _⟩
        exact absurd (List.isEmpty_iff.mp h2) hne
    · rw [if_neg h2]
      have hne : dag.steps ≠ [] := by
        intro h
        rw [h] at h2
        exact h2 rfl
      cases hfind : dag.steps.find? (fun s => !(registry.contains s.intent.action_id)) with
      | some s =>
        constructor
        · intro h
          cases h
        · rintro ⟨_, _, hreg, _⟩
          have hmem := List.mem_of_find?_eq_some hfind
          have hpred := List.find?_some hfind
          rw [Bool.not_eq_true'] at hpred
          have hc : registry.contains s.intent.action_id = true :=
            List.elem_iff.mpr (hreg s hmem)
          rw [hpred] at hc
          cases hc
      | none =>
        have hreg : ∀ s ∈ dag.steps, s.intent.action_id ∈ registry := by
          intro s hs
          have := List.find?_eq_none.mp hfind s hs
          rw [Bool.not_eq_true'] at this
          rw [Bool.not_eq_false] at this
          exact List.elem_iff.mp this
        cases hcalc : DAGValidator.calcMaxDepth dag with
        | error e =>
          cases e
          constructor
          · intro h
            cases h
          · rintro ⟨_, _, _, hdeps, hroots, hnodup, hbound⟩
            obtain ⟨d, hok, _⟩ := (DAGValidator.calcMaxDepth_ok_iff dag).mpr
              ⟨hdeps, hroots, hnodup, hbound⟩
            rw [hcalc] at hok
            cases hok
        | ok d =>
          show (if d > DAGValidator.MAX_DEPTH then ((false : Bool), "DAG too deep")
            else (true, "Success")).fst = true ↔ _
          by_cases hdeep : d > DAGValidator.MAX_DEPTH
          · rw [if_pos hdeep]
            constructor
            · intro h
              cases h
            · rintro ⟨_, _, _, hdeps, hroots, hnodup, hbound⟩
              obtain ⟨d2, hok, hle⟩ := (DAGValidator.calcMaxDepth_ok_iff dag).mpr
                ⟨hdeps, hroots, hnodup, hbound⟩
              rw [hcalc] at hok
              have h3 : d2 = d := by
                injection hok with h2
                exact h2.symm
              omega
          · rw [if_neg hdeep]
            constructor
            · intro _
              have hrest := (DAGValidator.calcMaxDepth_ok_iff dag).mp
                ⟨d, hcalc, Nat.not_lt.mp hdeep⟩
              exact ⟨hne, hlen, hreg, hrest.1, hrest.2.1, hrest.2.2.1, hrest.2.2.2⟩
            · intro _
              rfl

/-- C4 counterexample: a three-step DAG with root R and the two-cycle
between A and B passes validation although its dependency relation is
cyclic, because the cycle is unreachable from the root, refuting the
acyclicity clause of the claim. -/
theorem validator_accepts_cycle_beside_root :
    (DAGValidator.validate registryIds cexCycleDag).fst = true ∧
    DAGValidator.Edge cexCycleDag "A" "B" ∧
    DAGValidator.Edge cexCycleDag "B" "A" ∧
    ¬ (∀ u l, List.Chain (DAGValidator.Edge cexCycleDag) u l → (u :: l).Nodup) := by
  refine ⟨rfl, by decide, by decide, ?_⟩
  intro h
  have hc : List.Chain (DAGValidator.Edge cexCycleDag) "A" ["B", "A"] := by
    refine List.Chain.cons (by decide) (List.Chain.cons (by decide) List.Chain.nil)
  have := h "A" ["B", "A"] hc
  simp at this

/-- C3 amended: the condition is false exactly when some completed entry id
occurs in the condition string and the first such entry (in completion
order) has a success flag other than literally true; with no completed
entry mentioned, the condition is true (fail-open), so the step runs. -/
theorem evaluate_condition_false_iff (cond : String) (ctx : List (String × PResult)) :
    DAGExecutor.evaluate_condition cond ctx = false ↔
      ∃ pre sid r post, ctx = pre ++ (sid, r) :: post ∧
        (∀ p ∈ pre, strContains cond p.fst = false) ∧
        strContains cond sid = true ∧ r.success.getD false = false := by
  induction ctx with
  | nil =>
    constructor
    · intro h
      cases h
    · rintro ⟨pre, sid, r, post, heq, -, -, -⟩
      exact absurd heq (List.append_ne_nil_of_right_ne_nil pre (List.cons_ne_nil _ _)).symm
  | cons hd tl ih =>
    by_cases hhd : strContains cond hd.fst = true
    · rw [DAGExecutor.evaluate_condition]
      simp only [List.find?_cons, hhd]
      constructor
      · intro h
        exact ⟨[], hd.fst, hd.snd, tl, by simp, by simp, hhd, h⟩
      · rintro ⟨pre, sid, r, post, heq, hpre, hsid, hr⟩
        cases pre with
        | nil =>
          rw [List.nil_append] at heq
          have h1 : hd = (sid, r) := (List.cons_eq_cons.mp heq).1
          rw [h1]
          exact hr
        | cons q pre2 =>
          rw [List.cons_append] at heq
          have h1 : hd = q := (List.cons_eq_cons.mp heq).1
          have := hpre q (List.mem_cons_self _ _)
          rw [← h1, hhd] at this
          cases this
    · have hhd2 : strContains cond hd.fst = false := by
        cases hc : strContains cond hd.fst
        · rfl
        · exact absurd hc hhd
      rw [DAGExecutor.evaluate_condition]
      simp only [List.find?_cons, hhd2]
      rw [DAGExecutor.evaluate_condition] at ih
      rw [ih]
      constructor
      · rintro ⟨pre, sid, r, post, heq, hpre, hsid, hr⟩
        refine ⟨hd :: pre, sid, r, post, by rw [heq, List.cons_append], ?_, hsid, hr⟩
        intro p hp
        rcases List.mem_cons.mp hp with rfl | hp2
        · exact hhd2
        · exact hpre p hp2
      · rintro ⟨pre, sid, r, post, heq, hpre, hsid, hr⟩
        cases pre with
        | nil =>
          rw [List.nil_append] at heq
          have h1 : hd = (sid, r) := (List.cons_eq_cons.mp heq).1
          rw [h1] at hhd2
          rw [hhd2] at hsid
          cases hsid
        | cons q pre2 =>
          rw [List.cons_append] at heq
          have h1 := List.cons_eq_cons.mp heq
          refine ⟨pre2, sid, r, post, h1.2, ?_, hsid, hr⟩
          intro p hp
          exact hpre p (List.mem_cons_of_mem _ hp)

/-- C7 amended: when some trigger pattern matches, route is deterministic
and local: the first matching pattern in the ordered list selects the
intent, independently of the fallback LLM; when no pattern matches, route
performs the semantic fallback LLM call, and yields CONVERSE when that call
fails. -/
theorem route_first_match_and_fallback (text : String)
    (llm llm2 : String → Except Unit String) :
    (∀ k (hk : k < IntentRouter.triggers.length),
      IntentRouter.patternMatches (IntentRouter.triggers.get ⟨k, hk⟩).fst text = true →
      (∀ p ∈ IntentRouter.triggers.take k,
        IntentRouter.patternMatches p.fst text = false) →
      IntentRouter.route llm text = (IntentRouter.triggers.get ⟨k, hk⟩).snd ∧
      IntentRouter.route llm text = IntentRouter.route llm2 text) ∧
    ((∀ p ∈ IntentRouter.triggers, IntentRouter.patternMatches p.fst text = false) →
      IntentRouter.route llm text = IntentRouter.semantic_fallback llm text ∧
      (llm text = Except.error () → IntentRouter.route llm text = Intent.CONVERSE)) := by
  constructor
  · intro k hk hmatch hprior
    match k, hk with
    | 0, _ =>
      rw [IntentRouter.route, IntentRouter.route]
      simp only [IntentRouter.triggers] at hmatch ⊢
      simp only [List.get] at hmatch ⊢
      simp only [List.find?_cons, hmatch]
      exact ⟨trivial, trivial⟩
    | 1, _ =>
      have h0 := hprior _ (by rw [IntentRouter.triggers]; exact List.mem_cons_self _ _)
      rw [IntentRouter.route, IntentRouter.route]
      simp only [IntentRouter.triggers] at hmatch h0 ⊢
      simp only [List.get] at hmatch ⊢
      simp only [List.find?_cons, h0, hmatch]
      exact ⟨trivial, trivial⟩
    | 2, _ =>
      have h0 := hprior _ (by rw [IntentRouter.triggers]; exact List.mem_cons_self _ _)
      have h1 := hprior _ (by
        rw [IntentRouter.triggers]
        exact List.mem_cons_of_mem _ (List.mem_cons_self _ _))
      rw [IntentRouter.route, IntentRouter.route]
      simp only [IntentRouter.triggers] at hmatch h0 h1 ⊢
      simp only [List.get] at hmatch ⊢
      simp only [List.find?_cons, h0, h1, hmatch]
      exact ⟨trivial, trivial⟩
    | n + 3, hk =>
      simp [IntentRouter.triggers] at hk
  · intro hall
    have hn : IntentRouter.triggers.find?
        (fun p => IntentRouter.patternMatches p.fst text) = none := by
      rw [List.find?_eq_none]
      intro p hp
      rw [hall p hp]
      intro h
      cases h
    constructor
    · rw [IntentRouter.route, hn]
    · intro herr
      rw [IntentRouter.route, hn, IntentRouter.semantic_fallback, herr]

/-- C7 witness: the text mentions weather, the first trigger matches, and
route answers REALTIME_SEARCH whatever the fallback LLM would say. -/
theorem route_first_match_witness :
    IntentRouter.route (fun _ => Except.error ()) "what is the weather" =
      Intent.REALTIME_SEARCH ∧
    IntentRouter.route (fun _ => Except.error ()) "what is the weather" =
      IntentRouter.route (fun _ => Except.ok "TOOL_ACTION") "what is the weather" := by
  have h := (route_first_match_and_fallback "what is the weather"
    (fun _ => Except.error ()) (fun _ => Except.ok "TOOL_ACTION")).1
    0 (by decide) (by decide) (by simp)
  exact ⟨h.1, h.2⟩

/-- C8: execute_plan never propagates an error: CONVERSE yields the empty
Conversational DAG; for any other intent an LLM exception, a failed JSON
extraction, a failed parse, or a validator rejection each yield the fallback
DAG, which is the single FS_LIST step for TOOL_ACTION with list or files in
the lowercased text and the single MEMORY_GET step otherwise. -/
theorem planner_error_fallback (parse : String → Except Unit TaskPlanner.PlanJson)
    (registry : List String) (intent : Intent) (user : String) (fb : Option String) :
    (∀ llm, TaskPlanner.execute_plan llm parse registry Intent.CONVERSE user fb =
      ⟨"Conversational", []⟩) ∧
    (intent ≠ Intent.CONVERSE →
      (TaskPlanner.execute_plan (Except.error ()) parse registry intent user fb =
        TaskPlanner.fallback_dag intent user) ∧
      (∀ raw, TaskPlanner.extractJson (trimStr raw) = none →
        TaskPlanner.execute_plan (Except.ok raw) parse registry intent user fb =
          TaskPlanner.fallback_dag intent user) ∧
      (∀ raw sub, TaskPlanner.extractJson (trimStr raw) = some sub →
        parse sub = Except.error () →
        TaskPlanner.execute_plan (Except.ok raw) parse registry intent user fb =
          TaskPlanner.fallback_dag intent user) ∧
      (∀ raw sub pj, TaskPlanner.extractJson (trimStr raw) = some sub →
        parse sub = Except.ok pj →
        (DAGValidator.validate registry (TaskPlanner.mapToDag pj)).fst = false →
        TaskPlanner.execute_plan (Except.ok raw) parse registry intent user fb =
          TaskPlanner.fallback_dag intent user)) ∧
    (intent = Intent.TOOL_ACTION →
      (strContains (lowerStr user) "list" = true ∨
       strContains (lowerStr user) "files" = true) →
      TaskPlanner.fallback_dag intent user =
        ⟨"Fallback Plan", [⟨"FALLBACK_LIST", "", ⟨"FS_LIST", [], [], none⟩⟩]⟩) ∧
    ((intent ≠ Intent.TOOL_ACTION ∨
      (strContains (lowerStr user) "list" = false ∧
       strContains (lowerStr user) "files" = false)) →
      TaskPlanner.fallback_dag intent user =
        ⟨"Fallback Plan", [⟨"FALLBACK_QUERY", "", ⟨"MEMORY_GET", [], [], none⟩⟩]⟩) := by
  refine ⟨?_, ?_, ?_, ?_⟩
  · intro llm
    rw [TaskPlanner.execute_plan.eq_def, if_pos rfl]
  · intro hne
    refine ⟨?_, ?_, ?_, ?_⟩
    · rw [TaskPlanner.execute_plan.eq_def, if_neg hne]
    · intro raw hext
      rw [TaskPlanner.execute_plan.eq_def, if_neg hne]
      simp only [hext]
    · intro raw sub hext hparse
      rw [TaskPlanner.execute_plan.eq_def, if_neg hne]
      simp only [hext, hparse]
    · intro raw sub pj hext hparse hval
      rw [TaskPlanner.execute_plan.eq_def, if_neg hne]
      simp only [hext, hparse, hval, Bool.false_eq_true, if_false]
  · intro hia hcontains
    subst hia
    rw [TaskPlanner.fallback_dag]
    have hc : (if Intent.TOOL_ACTION = Intent.TOOL_ACTION ∧
        (strContains (lowerStr user) "list" = true ∨
         strContains (lowerStr user) "files" = true) then
        [(⟨"FALLBACK_LIST", "", ⟨"FS_LIST", [], [], none⟩⟩ : PlannerStep)] else []) =
        [⟨"FALLBACK_LIST", "", ⟨"FS_LIST", [], [], none⟩⟩] :=
      if_pos ⟨rfl, hcontains⟩
    rw [hc]
    rfl
  · intro hother
    rw [TaskPlanner.fallback_dag]
    have hc : (if intent = Intent.TOOL_ACTION ∧
        (strContains (lowerStr user) "list" = true ∨
         strContains (lowerStr user) "files" = true) then
        [(⟨"FALLBACK_LIST", "", ⟨"FS_LIST", [], [], none⟩⟩ : PlannerStep)] else []) = [] := by
      refine if_neg ?_
      rintro ⟨hia, hcontains⟩
      rcases hother with hne | ⟨hl, hf⟩
      · exact hne hia
      · rcases hcontains with h | h
        · rw [hl] at h
          cases h
        · rw [hf] at h
          cases h
    rw [hc]
    rfl

/-- C8 witness: TOOL_ACTION with the text list files and a failing LLM call
falls back to the single FS_LIST step. -/
theorem planner_error_fallback_witness :
    TaskPlanner.execute_plan (Except.error ()) (fun _ => Except.error ()) registryIds
      Intent.TOOL_ACTION "list files" none =
      ⟨"Fallback Plan", [⟨"FALLBACK_LIST", "", ⟨"FS_LIST", [], [], none⟩⟩]⟩ := by
  have h := planner_error_fallback (fun _ => Except.error ()) registryIds
    Intent.TOOL_ACTION "list files" none
  have h1 := (h.2.1 (by decide)).1
  have h2 := h.2.2.1 rfl (Or.inl (by decide))
  rw [h1, h2]

namespace SemanticAnalyst

lemma externalFacts_nil_iff (rs : List PResult) :
    externalFacts rs = [] ↔
      ∀ r ∈ rs, ∀ d, r.rtype = some "rag" → r.data = some (PData.rag d) →
        d.chunks = [] := by
  unfold externalFacts
  rw [List.flatten_eq_nil_iff]
  constructor
  · intro hall r hr d hty hdata
    have hmem := List.mem_map_of_mem (fun r : PResult =>
      match r.rtype, r.data with
      | some t, some (PData.rag d) => if t = "rag" then d.chunks.map chunkLine else []
      | _, _ => []) hr
    have hnil : (match r.rtype, r.data with
        | some t, some (PData.rag d) => if t = "rag" then d.chunks.map chunkLine else []
        | _, _ => []) = [] := hall _ hmem
    rw [hty, hdata] at hnil
    simp only [if_pos rfl] at hnil
    exact List.map_eq_nil_iff.mp hnil
  · intro hall l hl
    obtain ⟨r, hr, rfl⟩ := List.mem_map.mp hl
    rcases hty : r.rtype with _ | t
    · simp [hty]
    · rcases hdata : r.data with _ | d
      · simp [hty, hdata]
      · cases d with
        | rag dr =>
          by_cases ht : t = "rag"
          · subst ht
            have := hall r hr dr hty hdata
            simp [hty, hdata, this]
          · simp [hty, hdata, ht]
        | mem dm => simp [hty, hdata]
        | tool dt => simp [hty, hdata]
        | raw ds => simp [hty, hdata]

end SemanticAnalyst

/-- C9: on every well formed result list, synthesize answers, and its
needs_more_data flag is true exactly when some result is a RAG step, every
RAG payload carries zero chunks (the external facts partition is empty),
and at least one RAG result has a success flag that is literally true. -/
theorem analyst_needs_more_iff (rs : List PResult)
    (h : rs.all SemanticAnalyst.wellFormed = true) :
    ∃ p, SemanticAnalyst.synthesize rs = some p ∧
      (p.snd = true ↔
        ((∃ r ∈ rs, r.rtype = some "rag") ∧
         (∀ r ∈ rs, ∀ d, r.rtype = some "rag" → r.data = some (PData.rag d) →
            d.chunks = []) ∧
         (∃ r ∈ rs, r.rtype = some "rag" ∧ r.success = some true))) := by
  rw [SemanticAnalyst.synthesize, if_pos h]
  refine ⟨_, rfl, ?_⟩
  simp only [Bool.and_eq_true, List.any_eq_true, decide_eq_true_eq]
  constructor
  · rintro ⟨⟨hatt, hemp⟩, hsucc⟩
    refine ⟨hatt, ?_, ?_⟩
    · rw [← SemanticAnalyst.externalFacts_nil_iff]
      exact List.isEmpty_iff.mp hemp
    · obtain ⟨r, hr, hs⟩ := hsucc
      exact ⟨r, hr, hs.1, hs.2⟩
  · rintro ⟨hatt, hemp, r, hr, hty, hs⟩
    refine ⟨⟨hatt, ?_⟩, ⟨r, hr, hty, hs⟩⟩
    rw [List.isEmpty_iff]
    exact (SemanticAnalyst.externalFacts_nil_iff rs).mpr hemp

/-- C9 witness: one successful RAG result with zero chunks makes synthesize
report insufficiency. -/
theorem analyst_needs_more_iff_witness :
    ∃ p, SemanticAnalyst.synthesize
        [⟨some "rag", some true, some (PData.rag ⟨[]⟩), none, none⟩] = some p ∧
      p.snd = true := by
  obtain ⟨p, hp, hiff⟩ := analyst_needs_more_iff
    [⟨some "rag", some true, some (PData.rag ⟨[]⟩), none, none⟩] (by decide)
  refine ⟨p, hp, hiff.mpr ⟨⟨_, List.mem_singleton_self _, rfl⟩, ?_, ⟨_, List.mem_singleton_self _, rfl, rfl⟩⟩⟩
  intro r hr d hty hdata
  rw [List.mem_singleton] at hr
  subst hr
  have : PData.rag d = PData.rag ⟨[]⟩ := by
    have h2 := hdata.symm.trans (rfl : (some (PData.rag ⟨[]⟩) : Option PData) = some (PData.rag ⟨[]⟩))
    injection hdata with h3
    exact h3.symm ▸ rfl
  injection this with h4
  rw [h4]
